import Mathlib

/-!
# Verification of the Readout Confusion Inversion (RCI) module

Shallow embedding of `src/mitiq/rem/rci.py` (functions `execute_with_rci`,
`mitigate_executor`, `rci_decorator`) together with models of the external
collaborators the module calls into (cirq's `to_valid_state_vector` and
`sample_state_vector`, mitiq's `MeasurementResult`, `functools.wraps`),
which the specification describes at their interface boundary.

Numbers are rationals (`ℚ`): the Python code works with machine floats, but
every matrix and vector manipulated by the claims has small integer or
dyadic entries, so exact rational arithmetic mirrors the float computation
without rounding concerns.

Bit ordering is cirq's big-endian convention: the first entry of a bit
vector is the most significant digit of the basis-state index.
-/

set_option autoImplicit false

namespace Rci

/-- Big-endian value of a bit vector: the index of the one-hot basis state
that cirq's `to_valid_state_vector` builds from a list of qubit values
(first qubit is the most significant digit). -/
def bitsToNat (bs : List Bool) : Nat :=
  bs.foldl (fun a b => 2 * a + (if b then 1 else 0)) 0

/-- Big-endian digits of `k`, as a bit vector of length `n` (the inverse
direction: basis-state index back to per-qubit measurement outcomes). -/
def natToBits (n k : Nat) : List Bool :=
  (List.range n).map (fun i => Nat.testBit k (n - 1 - i))

/-- One-hot vector of length `d` with a single `1` at position `k`:
the state-vector representation of one measured shot. -/
def oneHot (d k : Nat) : List ℚ :=
  (List.range d).map (fun j => if j = k then 1 else 0)

theorem bitsToNat_aux (bs : List Bool) (a : Nat) :
    bs.foldl (fun a b => 2 * a + (if b then 1 else 0)) a
      = a * 2 ^ bs.length + bitsToNat bs := by
  induction bs generalizing a with
  | nil => simp [bitsToNat]
  | cons b bs ih =>
    have h2 : bitsToNat (b :: bs)
        = (2 * 0 + (if b then 1 else 0)) * 2 ^ bs.length + bitsToNat bs := by
      show bs.foldl _ _ = _
      exact ih _
    show bs.foldl _ (2 * a + _) = _
    rw [ih, h2]
    simp only [List.length_cons, pow_succ]
    ring

theorem bitsToNat_cons (b : Bool) (bs : List Bool) :
    bitsToNat (b :: bs) = (if b then 2 ^ bs.length else 0) + bitsToNat bs := by
  have h2 : bitsToNat (b :: bs)
      = (2 * 0 + (if b then 1 else 0)) * 2 ^ bs.length + bitsToNat bs := by
    show bs.foldl _ _ = _
    exact bitsToNat_aux bs _
  rw [h2]
  cases b <;> simp

theorem bitsToNat_lt (bs : List Bool) : bitsToNat bs < 2 ^ bs.length := by
  induction bs with
  | nil => simp [bitsToNat]
  | cons b bs ih =>
    rw [bitsToNat_cons]
    simp only [List.length_cons, pow_succ]
    cases b <;> simp <;> omega

theorem testBit_bitsToNat_cons (b : Bool) (bs : List Bool) (j : Nat) (hj : j < bs.length) :
    Nat.testBit (bitsToNat (b :: bs)) j = Nat.testBit (bitsToNat bs) j := by
  rw [bitsToNat_cons, Nat.testBit_to_div_mod, Nat.testBit_to_div_mod]
  have hdvd : (2 : Nat) ^ j ∣ (if b then 2 ^ bs.length else 0) := by
    cases b
    · simp
    · simpa using pow_dvd_pow 2 (Nat.le_of_lt hj)
  rw [Nat.add_div_of_dvd_right hdvd]
  have h2 : (if b then 2 ^ bs.length else 0) / 2 ^ j % 2 = 0 := by
    cases b
    · simp
    · show 2 ^ bs.length / 2 ^ j % 2 = 0
      rw [Nat.pow_div (Nat.le_of_lt hj) (by norm_num)]
      rw [show bs.length - j = (bs.length - j - 1) + 1 by omega, pow_succ]
      exact Nat.mul_mod_left _ 2
  have h3 : ((if b then 2 ^ bs.length else 0) / 2 ^ j + bitsToNat bs / 2 ^ j) % 2
      = bitsToNat bs / 2 ^ j % 2 := by omega
  rw [h3]

theorem testBit_bitsToNat (bs : List Bool) (i : Nat) (h : i < bs.length) :
    Nat.testBit (bitsToNat bs) (bs.length - 1 - i) = bs.getD i false := by
  induction bs generalizing i with
  | nil => simp at h
  | cons b bs ih =>
    have hlt : bitsToNat bs < 2 ^ bs.length := bitsToNat_lt bs
    cases i with
    | zero =>
      have hxx : (b :: bs).length - 1 - 0 = bs.length := by simp
      rw [hxx, List.getD_cons_zero, bitsToNat_cons, Nat.testBit_to_div_mod]
      have hdiv : ((if b then 2 ^ bs.length else 0) + bitsToNat bs) / 2 ^ bs.length
          = if b then 1 else 0 := by
        cases b
        · simp [Nat.div_eq_of_lt hlt]
        · show (2 ^ bs.length + bitsToNat bs) / 2 ^ bs.length = 1
          rw [Nat.add_comm, Nat.add_div_right _ (by positivity : 0 < 2 ^ bs.length),
            Nat.div_eq_of_lt hlt]
      rw [hdiv]
      cases b <;> simp
    | succ i =>
      have hi : i < bs.length := by
        have := h; simp only [List.length_cons] at this; omega
      have hj : (b :: bs).length - 1 - (i + 1) = bs.length - 1 - i := by
        simp only [List.length_cons]; omega
      have hjlt : bs.length - 1 - i < bs.length := by omega
      rw [hj, List.getD_cons_succ, testBit_bitsToNat_cons b bs _ hjlt]
      exact ih i hi

theorem natToBits_length (n k : Nat) : (natToBits n k).length = n := by
  simp [natToBits]

theorem natToBits_bitsToNat (bs : List Bool) :
    natToBits bs.length (bitsToNat bs) = bs := by
  apply List.ext_getElem
  · simp [natToBits]
  · intro i h1 h2
    simp only [natToBits, List.getElem_map, List.getElem_range]
    rw [testBit_bitsToNat bs i h2]
    exact List.getD_eq_getElem bs false h2

theorem bitsToNat_map_not (bs : List Bool) :
    bitsToNat (bs.map not) = 2 ^ bs.length - 1 - bitsToNat bs := by
  induction bs with
  | nil => simp [bitsToNat]
  | cons b bs ih =>
    have hlt : bitsToNat bs < 2 ^ bs.length := bitsToNat_lt bs
    rw [List.map_cons, bitsToNat_cons, bitsToNat_cons, ih]
    simp only [List.length_cons, List.length_map, pow_succ]
    cases b <;> simp <;> omega

theorem oneHot_length (d k : Nat) : (oneHot d k).length = d := by
  simp [oneHot]

theorem oneHot_getD (d k j : Nat) (h : j < d) :
    (oneHot d k).getD j 0 = if j = k then 1 else 0 := by
  rw [List.getD_eq_getElem _ _ (by simpa [oneHot_length] using h)]
  simp [oneHot]

/-! ## Data model

`MeasurementResult` mirrors mitiq's measurement-result data model as the
spec describes it (section 3): an ordered sequence of shots, each a
fixed-length bit vector, plus the ordered qubit indices the bit columns
correspond to.  `Circuit` is opaque except for its qubit count, the only
circuit attribute `execute_with_rci` reads (`circuit.all_qubits()`). -/

/-- A measurement result: `result` is the list of shots (bit vectors) and
`qubit_indices` the ordered qubit indices of the bit columns. -/
structure MeasurementResult where
  result : List (List Bool)
  qubit_indices : List Nat
deriving DecidableEq, Repr

/-- A circuit, opaque except for the number of qubits returned by
`circuit.all_qubits()`. -/
structure Circuit where
  numQubits : Nat
deriving DecidableEq, Repr

/-- A rectangular rational matrix with explicit shape, modelling a 2-D
numpy array: `entry i j` is the element in row `i`, column `j` (reads
outside the shape are irrelevant and never used by the pipeline). -/
structure MatQ where
  rows : Nat
  cols : Nat
  entry : Nat → Nat → ℚ

/-- Matrix transpose (numpy `.T`). -/
def MatQ.transpose (A : MatQ) : MatQ :=
  ⟨A.cols, A.rows, fun i j => A.entry j i⟩

/-- Matrix product (numpy `@`); the caller is responsible for the numpy
shape requirement `A.cols = B.rows`, which the pipeline checks before
multiplying. -/
def MatQ.mul (A B : MatQ) : MatQ :=
  ⟨A.rows, B.cols, fun i j => ∑ k in Finset.range A.cols, A.entry i k * B.entry k j⟩

/-- Row `i` of a matrix, as a list of length `cols`. -/
def MatQ.row (A : MatQ) (i : Nat) : List ℚ :=
  (List.range A.cols).map (A.entry i)

/-- The identity matrix of dimension `d`. -/
def idMatQ (d : Nat) : MatQ :=
  ⟨d, d, fun i j => if i = j then 1 else 0⟩

/-- The anti-diagonal (bit-reversal) permutation matrix of dimension `d`:
entry `(i, j)` is `1` exactly when `i + j = d - 1`. -/
def antiDiagMatQ (d : Nat) : MatQ :=
  ⟨d, d, fun i j => if i + j = d - 1 then 1 else 0⟩

/-- The ways a call into the pipeline can fail, mirroring the Python
exceptions that can escape `execute_with_rci`:
* `emptyInput`: `np.apply_along_axis` raises when the noisy result has
  no shots (zero iteration dimensions);
* `invalidState`: cirq rejects a state-like input (wrong length, or a
  state-vector length that is not a power of two);
* `shapeMismatch`: numpy `ValueError` because the operand shapes of
  `inverse_confusion_matrix @ noisy_state_vectors.T` do not line up;
* `indexError`: cirq `sample_state_vector` rejects a measurement index
  that is out of range for the inferred qubit count;
* `degenerateProbs`: the corrected quasi-probabilities sum to zero, so
  the normalisation (and `numpy.random.choice`) fails;
* `invalidResult`: `.squeeze()` flattened the sampled array to one
  dimension (a single shot, or a single measured index), so the
  measurement-result construction rejects it;
* `attributeError`: attribute access on `observable = None` at the final
  expectation-value call. -/
inductive RciError where
  | emptyInput
  | invalidState
  | shapeMismatch
  | indexError
  | degenerateProbs
  | invalidResult
  | attributeError
deriving DecidableEq, Repr

/-- Observable side effects of `execute_with_rci`, in the order they
occur: the informational `print` notice, the calibration sampling that
builds a confusion matrix, and the single `executor._run([circuit])`
call.  The trace returned by the model lists the events that happened
before the result (or the error) was produced, in order. -/
inductive RciEvent where
  | notice
  | calibrate
  | executorRun
deriving DecidableEq, Repr

/-- Sequences a fallible computation over a list, stopping at the first
error: the model of applying a fallible row transform to every row of an
array (`np.apply_along_axis` with a raising callee). -/
def mapExcept {α β ε : Type} (f : α → Except ε β) : List α → Except ε (List β)
  | [] => .ok []
  | a :: as =>
    match f a with
    | .error e => .error e
    | .ok b =>
      match mapExcept f as with
      | .error e => .error e
      | .ok bs => .ok (b :: bs)

theorem mapExcept_ok_of_forall {α β ε : Type} (f : α → Except ε β) (g : α → β)
    (l : List α) (h : ∀ a ∈ l, f a = .ok (g a)) :
    mapExcept f l = .ok (l.map g) := by
  induction l with
  | nil => rfl
  | cons a as ih =>
    have ha : f a = .ok (g a) := h a (List.mem_cons_self a as)
    have has : mapExcept f as = .ok (as.map g) :=
      ih (fun x hx => h x (List.mem_cons_of_mem a hx))
    simp [mapExcept, ha, has]

theorem mapExcept_length {α β ε : Type} (f : α → Except ε β) (l : List α)
    (bs : List β) (h : mapExcept f l = .ok bs) : bs.length = l.length := by
  induction l generalizing bs with
  | nil =>
    simp only [mapExcept] at h
    cases h
    rfl
  | cons a as ih =>
    simp only [mapExcept] at h
    cases hfa : f a with
    | error e => rw [hfa] at h; simp at h
    | ok b =>
      rw [hfa] at h
      cases has : mapExcept f as with
      | error e => rw [has] at h; simp at h
      | ok bs2 =>
        rw [has] at h
        simp only [Except.ok.injEq] at h
        subst h
        simp [ih bs2 has]

/-! ## Models of the external collaborators (spec section 6)

The pipeline calls two cirq primitives.  They are not part of this
repository; the models below follow cirq's documented behaviour, which
the spec declares load-bearing ("exact renormalization policy ... must be
replicated faithfully").  Both use cirq's big-endian convention. -/

/-- Model of cirq's `to_valid_state_vector(measurement, num_qubits)` on a
row of measurement bits: a list of `num_qubits` qubit values is mapped to
the one-hot computational-basis state vector of length `2 ^ num_qubits`
indexed big-endian; any other length is rejected. -/
def to_valid_state_vector (num_qubits : Nat) (bits : List Bool) : Except RciError (List ℚ) :=
  if bits.length = num_qubits then
    .ok (oneHot (2 ^ num_qubits) (bitsToNat bits))
  else
    .error .invalidState

/-- The bits of the basis state `x` (of `nq` big-endian axes) at the
measured axes `indices`, in the order the indices are listed — how cirq's
`sample_state_vector` assembles the returned digits. -/
def axisBits (nq x : Nat) (indices : List Nat) : List Bool :=
  indices.map (fun q => Nat.testBit x (nq - 1 - q))

/-- Model of the measurement distribution cirq computes inside
`sample_state_vector`: the squared magnitude of each amplitude,
marginalised onto the measured axes (big-endian outcome `b` collects
every basis state whose bits at `indices` spell `b`). -/
def measProbs (v : List ℚ) (indices : List Nat) (nq : Nat) : List ℚ :=
  (List.range (2 ^ indices.length)).map (fun b =>
    ∑ x in Finset.range (2 ^ nq),
      if bitsToNat (axisBits nq x indices) = b then (v.getD x 0) ^ 2 else 0)

/-- Inverse-CDF sampling with one uniform draw `r ∈ [0, 1)`: the index
whose cumulative probability first exceeds `r` — the observable behaviour
of `numpy.random.choice(len(probs), p=probs)` for a proper distribution.
On the one-hot distributions the claims need, the result is the hot index
for every `r ∈ [0, 1)`, so the model is exact there. -/
def cumChoose : List ℚ → ℚ → Nat
  | [], _ => 0
  | p :: ps, r => if r < p then 0 else cumChoose ps (r - p) + 1

/-- Model of cirq's `sample_state_vector(state_vector, indices=...)` with
one repetition, fed a uniform draw `r`:
* the number of qubits is inferred from the vector length, which must be
  a power of two;
* every measured index must be below the inferred qubit count
  (cirq raises `IndexError` otherwise);
* probabilities are squared magnitudes marginalised onto `indices`,
  normalised by their total (a zero total is a fatal error);
* one basis value is drawn and returned as its big-endian digits, one
  bit per measured index, in the order of `indices`. -/
def sample_state_vector (v : List ℚ) (indices : List Nat) (r : ℚ) :
    Except RciError (List Bool) :=
  if v.length ≠ 2 ^ Nat.log2 v.length then .error .invalidState
  else if ¬ indices.all (fun q => decide (q < Nat.log2 v.length)) then .error .indexError
  else if (measProbs v indices (Nat.log2 v.length)).sum = 0 then .error .degenerateProbs
  else
    .ok (natToBits indices.length
      (cumChoose ((measProbs v indices (Nat.log2 v.length)).map
        (fun p => p / (measProbs v indices (Nat.log2 v.length)).sum)) r))

/-! ## The pipeline of `execute_with_rci` (rci.py lines 69-109)

The stages below follow the source line by line.  Randomness is made
explicit: `calib` stands for the external calibration sampler
(`measure_confusion_matrix` on a `NoisySingleQubitReadoutSampler(p0, p1)`
followed by `.correction_matrix()`), and `rs s` is the uniform draw
consumed by `sample_state_vector` for shot `s`.  The executor is a
deterministic function from circuits to measurement results (the
`Executor(executor)` wrapping at lines 69-70 is behaviour-invisible, and
`executor._run([circuit])` returns that single result). -/

/-- Lines 88-94: map every shot of the noisy result through
`to_valid_state_vector` (via `np.apply_along_axis`, which raises on an
empty array — zero iteration dimensions — and otherwise propagates the
first exception). -/
def stateVectorStage (n : Nat) (rows : List (List Bool)) : Except RciError (List (List ℚ)) :=
  if rows = [] then .error .emptyInput
  else mapExcept (to_valid_state_vector n) rows

/-- The stacked state vectors as one matrix `V` of shape
`(num_shots, d)`, shots as rows. -/
def batchMatrix (d : Nat) (vecs : List (List ℚ)) : MatQ :=
  ⟨vecs.length, d, fun i j => (vecs.getD i []).getD j 0⟩

/-- Lines 96-98, exactly as written in the source:
`(inverse_confusion_matrix @ noisy_state_vectors.T).T`. -/
def adjustedMatrix (M : MatQ) (d : Nat) (vecs : List (List ℚ)) : MatQ :=
  (M.mul (batchMatrix d vecs).transpose).transpose

/-- The correction stage: build the one-hot state vectors, then apply the
inverse matrix.  numpy's `@` raises a shape-mismatch `ValueError` unless
the number of columns of the inverse matrix equals `2 ^ n`, the length of
the stacked state vectors; this is the only dimension check the code
performs, and it happens here — not before. -/
def correctionStage (M : MatQ) (n : Nat) (rows : List (List Bool)) : Except RciError MatQ :=
  match stateVectorStage n rows with
  | .error e => .error e
  | .ok vecs =>
    if M.cols = 2 ^ n then .ok (adjustedMatrix M (2 ^ n) vecs)
    else .error .shapeMismatch

/-- Lines 100-105: re-sample one bit vector per corrected row with
`sample_state_vector(..., indices=noisy_result.qubit_indices)`; each
sampled row has one bit per measured index.  The sampled array has shape
`(num_shots, 1, k)` before line 106's `.squeeze()`, which is modelled
separately below. -/
def resampleStage (A : MatQ) (indices : List Nat) (rs : Nat → ℚ) :
    Except RciError (List (List Bool)) :=
  mapExcept (fun s => sample_state_vector (A.row s) indices (rs s)) (List.range A.rows)

/-- Line 106's `.squeeze()` together with the measurement-result
construction of line 108.  `.squeeze()` removes every size-1 axis of the
`(num_shots, 1, k)` sampled array: the singleton repetition axis always
goes, and when `num_shots = 1` or `k = 1` the shot axis or the bit axis
is flattened away too, leaving a 1-D array.  The constructor on line 108
is mitiq's `MeasurementResult`, which is not under `src/`; modelled from
the spec data model (section 3), a measurement result is a sequence of
shots, each a fixed-length bit vector, so a flattened 1-D array is
rejected and only the genuinely two-dimensional case succeeds. -/
def squeezeToResult (rows : List (List Bool)) (indices : List Nat) :
    Except RciError MeasurementResult :=
  if rows.length = 1 ∨ indices.length = 1 then .error .invalidResult
  else .ok ⟨rows, indices⟩

/-- Line 74-82: use the supplied inverse confusion matrix if present,
otherwise the one produced by the calibration sampler. -/
def resolveMatrix (inv : Option MatQ) (n : Nat) (p0 p1 : ℚ)
    (calib : Nat → ℚ → ℚ → MatQ) : MatQ :=
  match inv with
  | none => calib n p0 p1
  | some M => M

/-- Lines 84-108: run the executor once, correct, re-sample, squeeze and
assemble the corrected measurement result, which carries
`noisy_result.qubit_indices` unchanged (line 108). -/
def rciCorrectedResult (circuit : Circuit) (executor : Circuit → MeasurementResult)
    (M : MatQ) (rs : Nat → ℚ) : Except RciError MeasurementResult :=
  let noisy := executor circuit
  match correctionStage M circuit.numQubits noisy.result with
  | .error e => .error e
  | .ok A =>
    match resampleStage A noisy.qubit_indices rs with
    | .error e => .error e
    | .ok rows => squeezeToResult rows noisy.qubit_indices

/-- The whole of `execute_with_rci` (lines 46-109).  The returned trace
lists the side effects that happened, in order, before the value (or the
error) was produced: the notice `print` and the calibration sampling
happen first and only when no inverse matrix was supplied (lines 74-82),
then the single executor call (line 84).  The observable parameter
defaults to `None` in the source; its only use is the attribute access
`observable._expectation_from_measurements([result])` on line 109, which
fails on `None` and otherwise is the external expectation-value
computation, modelled as an arbitrary function of the corrected result. -/
def execute_with_rci (circuit : Circuit) (executor : Circuit → MeasurementResult)
    (observable : Option (MeasurementResult → ℚ)) (inverse_confusion_matrix : Option MatQ)
    (p0 p1 : ℚ) (calib : Nat → ℚ → ℚ → MatQ) (rs : Nat → ℚ) :
    List RciEvent × Except RciError ℚ :=
  let ev0 : List RciEvent :=
    match inverse_confusion_matrix with
    | none => [.notice, .calibrate]
    | some _ => []
  let M := resolveMatrix inverse_confusion_matrix circuit.numQubits p0 p1 calib
  let events := ev0 ++ [RciEvent.executorRun]
  match rciCorrectedResult circuit executor M rs with
  | .error e => (events, .error e)
  | .ok corrected =>
    match observable with
    | none => (events, .error .attributeError)
    | some f => (events, .ok (f corrected))

/-- Helper: whether an `Except` value is a success. -/
def exceptIsOk {ε α : Type} : Except ε α → Bool
  | .ok _ => true
  | .error _ => false

/-! ## Wrapper and decorator (rci.py lines 112-196) -/

/-- A Python function value with its introspectable metadata
(`__name__`, `__doc__`) and its behaviour. -/
structure PyFunction (α β : Type) where
  name : String
  doc : String
  call : α → β

/-- Model of `functools.wraps(orig)` applied to a fresh inner function:
the wrapper keeps the new behaviour but carries the original function's
metadata. -/
def wraps {α β γ : Type} (orig : PyFunction α β) (f : α → γ) : PyFunction α γ :=
  ⟨orig.name, orig.doc, f⟩

/-- `mitigate_executor` (lines 112-149): returns `new_executor`, the
`@wraps(executor)`-decorated closure that routes through
`execute_with_rci` with the stored arguments. -/
def mitigate_executor (executor : PyFunction Circuit MeasurementResult)
    (observable : Option (MeasurementResult → ℚ)) (inverse_confusion_matrix : Option MatQ)
    (p0 p1 : ℚ) (calib : Nat → ℚ → ℚ → MatQ) (rs : Nat → ℚ) :
    PyFunction Circuit (List RciEvent × Except RciError ℚ) :=
  wraps executor (fun qp =>
    execute_with_rci qp executor.call observable inverse_confusion_matrix p0 p1 calib rs)

/-- The first positional argument of `rci_decorator`: either absent
(default `None`), a genuine observable, or — the misuse the decorator
guards against — a callable executor passed because the decorator was
applied without parentheses. -/
inductive ObsArg where
  | absent
  | obs (f : MeasurementResult → ℚ)
  | callableObs (f : Circuit → MeasurementResult)

/-- Python's `callable(observable)` test on the first argument:
mitiq observables are not callable, executor functions are. -/
def ObsArg.isCallable : ObsArg → Bool
  | .callableObs _ => true
  | _ => false

/-- The observable actually forwarded to `mitigate_executor` once the
callable check has passed. -/
def ObsArg.toOption : ObsArg → Option (MeasurementResult → ℚ)
  | .obs f => some f
  | _ => none

/-- `rci_decorator` (lines 152-196): raises `TypeError` at decoration
time when its first positional argument is callable (decorator used
without parentheses, lines 178-183), and otherwise returns the decorator
closure that applies `mitigate_executor`. -/
def rci_decorator (observable : ObsArg) (inverse_confusion_matrix : Option MatQ)
    (p0 p1 : ℚ) (calib : Nat → ℚ → ℚ → MatQ) (rs : Nat → ℚ) :
    Except String
      (PyFunction Circuit MeasurementResult → PyFunction Circuit (List RciEvent × Except RciError ℚ)) :=
  if observable.isCallable then
    .error "Decorator must be used with parentheses (i.e., @rci_decorator()) even if no explicit arguments are passed."
  else
    .ok (fun executor =>
      mitigate_executor executor observable.toOption inverse_confusion_matrix p0 p1 calib rs)

/-! ## Supporting lemmas about the pipeline -/

/-- Applying a matrix to a single vector: row `i` of the result is the
dot product of row `i` of `M` with `v` — the `inverse_matrix @ row` form
of the spec. -/
def mulVecM (M : MatQ) (v : List ℚ) : List ℚ :=
  (List.range M.rows).map (fun i => ∑ k in Finset.range M.cols, M.entry i k * v.getD k 0)

theorem adjustedMatrix_rows (M : MatQ) (d : Nat) (vecs : List (List ℚ)) :
    (adjustedMatrix M d vecs).rows = vecs.length := rfl

theorem adjustedMatrix_row (M : MatQ) (d : Nat) (vecs : List (List ℚ)) (s : Nat) :
    (adjustedMatrix M d vecs).row s = mulVecM M (vecs.getD s []) := rfl

theorem sum_map_range {M : Type} [AddCommMonoid M] (n : Nat) (f : Nat → M) :
    ((List.range n).map f).sum = ∑ i in Finset.range n, f i := by
  induction n with
  | zero => simp
  | succ m ih =>
    rw [List.range_succ, Finset.sum_range_succ, List.map_append, List.sum_append]
    simp [ih]

theorem oneHot_sum (d k : Nat) (hk : k < d) : (oneHot d k).sum = 1 := by
  unfold oneHot
  rw [sum_map_range]
  rw [Finset.sum_ite_eq' (Finset.range d) k (fun _ => (1 : ℚ))]
  simp [hk]

theorem cumChoose_oneHot (d k : Nat) (r : ℚ) (hk : k < d) (h0 : 0 ≤ r) (h1 : r < 1) :
    cumChoose (oneHot d k) r = k := by
  induction k generalizing d r with
  | zero =>
    cases d with
    | zero => omega
    | succ m =>
      unfold oneHot
      rw [List.range_succ_eq_map, List.map_cons]
      show cumChoose ((if (0 : Nat) = 0 then (1 : ℚ) else 0) :: _) r = 0
      rw [if_pos rfl]
      unfold cumChoose
      rw [if_pos h1]
  | succ k ih =>
    cases d with
    | zero => omega
    | succ m =>
      unfold oneHot
      rw [List.range_succ_eq_map, List.map_cons, List.map_map]
      show cumChoose ((if (0 : Nat) = k + 1 then (1 : ℚ) else 0) :: _) r = k + 1
      rw [if_neg (by omega)]
      unfold cumChoose
      rw [if_neg (by linarith)]
      have hmap : (List.range m).map ((fun j => if j = k + 1 then (1 : ℚ) else 0) ∘ Nat.succ)
          = (List.range m).map (fun j => if j = k then (1 : ℚ) else 0) := by
        apply List.map_congr_left
        intro a _
        simp only [Function.comp]
        by_cases hak : a = k
        · rw [if_pos hak, if_pos (by omega)]
        · rw [if_neg hak, if_neg (by omega)]
      rw [hmap, sub_zero]
      have := ih m r (by omega) h0 h1
      unfold oneHot at this
      omega

theorem getD_map_lt {α β : Type} (g : α → β) (l : List α) (s : Nat) (hs : s < l.length)
    (d0 : β) (a0 : α) : (l.map g).getD s d0 = g (l.getD s a0) := by
  rw [List.getD_eq_getElem _ _ (by simpa using hs), List.getD_eq_getElem _ _ hs]
  simp

theorem range_map_getD {α : Type} (l : List α) (d0 : α) :
    (List.range l.length).map (fun i => l.getD i d0) = l := by
  apply List.ext_getElem
  · simp
  · intro i h1 h2
    simp only [List.getElem_map, List.getElem_range]
    exact List.getD_eq_getElem l d0 h2

theorem oneHot_getElem (d k b : Nat) (hb : b < (oneHot d k).length) :
    (oneHot d k)[b] = if b = k then (1 : ℚ) else 0 := by
  simp [oneHot]

theorem oneHot_getD_sq (d k x : Nat) (hx : x < d) :
    ((oneHot d k).getD x 0) ^ 2 = if x = k then (1 : ℚ) else 0 := by
  rw [oneHot_getD d k x hx]
  by_cases hxk : x = k
  · rw [if_pos hxk]; norm_num
  · rw [if_neg hxk]; norm_num

theorem measProbs_oneHot (nq kk : Nat) (indices : List Nat) (hk : kk < 2 ^ nq) :
    measProbs (oneHot (2 ^ nq) kk) indices nq
      = oneHot (2 ^ indices.length) (bitsToNat (axisBits nq kk indices)) := by
  apply List.ext_getElem
  · simp [measProbs, oneHot_length]
  · intro b h1 h2
    simp only [measProbs, List.getElem_map, List.getElem_range]
    rw [oneHot_getElem _ _ _ h2]
    rw [Finset.sum_eq_single kk ?side1 ?side2]
    case side1 =>
      intro x hxmem hxk
      rw [oneHot_getD_sq _ _ _ (by simpa using hxmem)]
      rw [if_neg hxk, ite_self]
    case side2 =>
      intro hkk
      exact absurd (Finset.mem_range.mpr hk) hkk
    rw [oneHot_getD_sq _ _ _ hk, if_pos rfl]
    by_cases hbb : b = bitsToNat (axisBits nq kk indices)
    · rw [if_pos hbb.symm, if_pos hbb]
    · rw [if_neg (fun h => hbb h.symm), if_neg hbb]

theorem mulVecM_id_oneHot (d kk : Nat) (_hk : kk < d) :
    mulVecM (idMatQ d) (oneHot d kk) = oneHot d kk := by
  apply List.ext_getElem
  · simp [mulVecM, idMatQ, oneHot_length]
  · intro i h1 h2
    have hi2 : i < d := by simpa [mulVecM, idMatQ] using h1
    simp only [mulVecM, idMatQ, List.getElem_map, List.getElem_range]
    rw [oneHot_getElem _ _ _ h2]
    have hstep : ∀ k ∈ Finset.range d,
        (if i = k then (1 : ℚ) else 0) * (oneHot d kk).getD k 0
          = if i = k then (if k = kk then (1 : ℚ) else 0) else 0 := by
      intro k hkmem
      rw [oneHot_getD d kk k (by simpa using hkmem)]
      by_cases hik : i = k
      · rw [if_pos hik, if_pos hik, one_mul]
      · rw [if_neg hik, if_neg hik, zero_mul]
    rw [Finset.sum_congr rfl hstep,
      Finset.sum_ite_eq (Finset.range d) i (fun k => if k = kk then (1 : ℚ) else 0)]
    rw [if_pos (Finset.mem_range.mpr hi2)]

theorem mulVecM_antiDiag_oneHot (d kk : Nat) (hk : kk < d) :
    mulVecM (antiDiagMatQ d) (oneHot d kk) = oneHot d (d - 1 - kk) := by
  apply List.ext_getElem
  · simp [mulVecM, antiDiagMatQ, oneHot_length]
  · intro i h1 h2
    have hi2 : i < d := by simpa [mulVecM, antiDiagMatQ] using h1
    simp only [mulVecM, antiDiagMatQ, List.getElem_map, List.getElem_range]
    rw [oneHot_getElem _ _ _ h2]
    have hstep : ∀ k ∈ Finset.range d,
        (if i + k = d - 1 then (1 : ℚ) else 0) * (oneHot d kk).getD k 0
          = if k = kk then (if i + k = d - 1 then (1 : ℚ) else 0) else 0 := by
      intro k hkmem
      rw [oneHot_getD d kk k (by simpa using hkmem)]
      by_cases hkkk : k = kk
      · rw [if_pos hkkk, if_pos hkkk, mul_one]
      · rw [if_neg hkkk, if_neg hkkk, mul_zero]
    rw [Finset.sum_congr rfl hstep,
      Finset.sum_ite_eq' (Finset.range d) kk (fun k => if i + k = d - 1 then (1 : ℚ) else 0)]
    rw [if_pos (Finset.mem_range.mpr hk)]
    by_cases hieq : i + kk = d - 1
    · rw [if_pos hieq, if_pos (by omega)]
    · rw [if_neg hieq, if_neg (by omega)]

theorem sample_state_vector_oneHot (nq kk : Nat) (indices : List Nat) (r : ℚ)
    (hk : kk < 2 ^ nq) (hidx : ∀ q ∈ indices, q < nq) (h0 : 0 ≤ r) (h1 : r < 1) :
    sample_state_vector (oneHot (2 ^ nq) kk) indices r
      = .ok (axisBits nq kk indices) := by
  have hlen : (oneHot (2 ^ nq) kk).length = 2 ^ nq := oneHot_length _ _
  have hlog : Nat.log2 ((oneHot (2 ^ nq) kk).length) = nq := by
    rw [hlen, Nat.log2_eq_log_two, Nat.log_pow (by norm_num)]
  have habits : (axisBits nq kk indices).length = indices.length := by
    simp [axisBits]
  have hblt : bitsToNat (axisBits nq kk indices) < 2 ^ indices.length := by
    have := bitsToNat_lt (axisBits nq kk indices)
    rwa [habits] at this
  unfold sample_state_vector
  rw [hlog, hlen]
  rw [if_neg (by simp)]
  rw [if_neg (by
    simp only [not_not, List.all_eq_true, decide_eq_true_eq]
    exact hidx)]
  rw [measProbs_oneHot nq kk indices hk]
  rw [oneHot_sum _ _ hblt]
  rw [if_neg (by norm_num)]
  have hmap : (oneHot (2 ^ indices.length) (bitsToNat (axisBits nq kk indices))).map
      (fun p => p / 1) = oneHot (2 ^ indices.length) (bitsToNat (axisBits nq kk indices)) := by
    simp
  rw [hmap, cumChoose_oneHot _ _ _ hblt h0 h1]
  rw [← habits, natToBits_bitsToNat]

theorem to_valid_state_vector_ok (n : Nat) (bs : List Bool) (h : bs.length = n) :
    to_valid_state_vector n bs = .ok (oneHot (2 ^ n) (bitsToNat bs)) := by
  unfold to_valid_state_vector
  rw [if_pos h]

theorem stateVectorStage_ok (n : Nat) (rows : List (List Bool)) (hne : rows ≠ [])
    (h : ∀ bs ∈ rows, bs.length = n) :
    stateVectorStage n rows = .ok (rows.map (fun bs => oneHot (2 ^ n) (bitsToNat bs))) := by
  unfold stateVectorStage
  rw [if_neg hne]
  exact mapExcept_ok_of_forall _ _ rows (fun bs hbs => to_valid_state_vector_ok n bs (h bs hbs))

theorem stateVectorStage_eq_ok (n : Nat) (rows : List (List Bool)) (vecs : List (List ℚ))
    (h : stateVectorStage n rows = .ok vecs) :
    mapExcept (to_valid_state_vector n) rows = .ok vecs := by
  unfold stateVectorStage at h
  by_cases he : rows = []
  · rw [if_pos he] at h
    simp at h
  · rwa [if_neg he] at h

theorem correctionStage_eq_of_sv (M : MatQ) (n : Nat) (rows : List (List Bool))
    (vecs : List (List ℚ)) (hsv : stateVectorStage n rows = .ok vecs) :
    correctionStage M n rows
      = if M.cols = 2 ^ n then .ok (adjustedMatrix M (2 ^ n) vecs)
        else .error RciError.shapeMismatch := by
  unfold correctionStage
  rw [hsv]

theorem correctionStage_rows (M : MatQ) (n : Nat) (rows : List (List Bool)) (A : MatQ)
    (h : correctionStage M n rows = .ok A) : A.rows = rows.length := by
  cases hsv : stateVectorStage n rows with
  | error e =>
    unfold correctionStage at h
    rw [hsv] at h
    simp at h
  | ok vecs =>
    rw [correctionStage_eq_of_sv M n rows vecs hsv] at h
    by_cases hc : M.cols = 2 ^ n
    · rw [if_pos hc] at h
      simp only [Except.ok.injEq] at h
      subst h
      rw [adjustedMatrix_rows]
      exact mapExcept_length _ _ _ (stateVectorStage_eq_ok n rows vecs hsv)
    · rw [if_neg hc] at h; simp at h

/-- The central computation: when there are at least two shots, every
shot has the right length, the qubit count is not one (so line 106's
`.squeeze()` keeps the sampled array two-dimensional), the qubit indices
are the standard `0, ..., n-1` ordering, and the inverse matrix sends
the one-hot vector of shot `s` to the one-hot vector of basis state
`tgt s`, the corrected result consists of the big-endian digits of
`tgt s`, one row per shot, with the qubit indices carried over. -/
theorem rciCorrectedResult_eq (c : Circuit) (executor : Circuit → MeasurementResult)
    (M : MatQ) (rs : Nat → ℚ) (tgt : Nat → Nat)
    (hshots : 2 ≤ (executor c).result.length)
    (hn : c.numQubits ≠ 1)
    (hrows : ∀ bs ∈ (executor c).result, bs.length = c.numQubits)
    (hidx : (executor c).qubit_indices = List.range c.numQubits)
    (hrs : ∀ s, 0 ≤ rs s ∧ rs s < 1)
    (hcols : M.cols = 2 ^ c.numQubits)
    (htgt : ∀ s, s < (executor c).result.length → tgt s < 2 ^ c.numQubits)
    (hrow : ∀ s, s < (executor c).result.length →
      mulVecM M (oneHot (2 ^ c.numQubits) (bitsToNat ((executor c).result.getD s [])))
        = oneHot (2 ^ c.numQubits) (tgt s)) :
    rciCorrectedResult c executor M rs
      = .ok ⟨(List.range (executor c).result.length).map
          (fun s => natToBits c.numQubits (tgt s)), (executor c).qubit_indices⟩ := by
  have hne : (executor c).result ≠ [] := by
    intro he
    rw [he] at hshots
    simp at hshots
  have hcorr : correctionStage M c.numQubits (executor c).result
      = .ok (adjustedMatrix M (2 ^ c.numQubits)
          ((executor c).result.map (fun bs => oneHot (2 ^ c.numQubits) (bitsToNat bs)))) := by
    rw [correctionStage_eq_of_sv M c.numQubits (executor c).result _
      (stateVectorStage_ok c.numQubits (executor c).result hne hrows), if_pos hcols]
  have hArows : (adjustedMatrix M (2 ^ c.numQubits)
      ((executor c).result.map (fun bs => oneHot (2 ^ c.numQubits) (bitsToNat bs)))).rows
        = (executor c).result.length := by
    rw [adjustedMatrix_rows, List.length_map]
  have hsample : ∀ s ∈ List.range (executor c).result.length,
      sample_state_vector
          ((adjustedMatrix M (2 ^ c.numQubits)
            ((executor c).result.map (fun bs => oneHot (2 ^ c.numQubits) (bitsToNat bs)))).row s)
          (executor c).qubit_indices (rs s)
        = .ok (natToBits c.numQubits (tgt s)) := by
    intro s hs
    have hslt : s < (executor c).result.length := List.mem_range.mp hs
    rw [adjustedMatrix_row]
    have hv : ((executor c).result.map
        (fun bs => oneHot (2 ^ c.numQubits) (bitsToNat bs))).getD s []
          = oneHot (2 ^ c.numQubits) (bitsToNat ((executor c).result.getD s [])) :=
      getD_map_lt _ _ s hslt [] []
    rw [hv, hrow s hslt, hidx]
    have hsamp := sample_state_vector_oneHot c.numQubits (tgt s) (List.range c.numQubits)
      (rs s) (htgt s hslt) (fun q hq => List.mem_range.mp hq) (hrs s).1 (hrs s).2
    rw [hsamp]
    rfl
  have hres : resampleStage
      (adjustedMatrix M (2 ^ c.numQubits)
        ((executor c).result.map (fun bs => oneHot (2 ^ c.numQubits) (bitsToNat bs))))
      (executor c).qubit_indices rs
        = .ok ((List.range (executor c).result.length).map
            (fun s => natToBits c.numQubits (tgt s))) := by
    unfold resampleStage
    rw [hArows]
    exact mapExcept_ok_of_forall _ _ _ hsample
  simp only [rciCorrectedResult, hcorr, hres]
  unfold squeezeToResult
  rw [if_neg (by
    rintro (h1 | h2)
    · rw [List.length_map, List.length_range] at h1
      omega
    · rw [hidx, List.length_range] at h2
      exact hn h2)]

/-! ## Concrete inputs for the closed theorems -/

/-- A fixed uniform draw of `1/2` for every shot: any value in `[0, 1)`
gives the same outcome on the deterministic distributions below. -/
def rsHalf : Nat → ℚ := fun _ => 1 / 2

/-- A stand-in calibration sampler, only consulted when no inverse matrix
is supplied. -/
def calibDefault : Nat → ℚ → ℚ → MatQ := fun n _ _ => idMatQ (2 ^ n)

/-- The deterministic full-flip readout of the tests (`p0 = p1 = 1`):
every measured bit is inverted. -/
def flipResult (r : MeasurementResult) : MeasurementResult :=
  ⟨r.result.map (List.map not), r.qubit_indices⟩

/-- An observable distinguishing one concrete list of shots from every
other: expectation `0` on the target shots, `1` elsewhere (the model
observable is an arbitrary function of the measurement result). -/
def obsIndicator (target : List (List Bool)) : MeasurementResult → ℚ :=
  fun mr => if mr.result = target then 0 else 1

/-- Modelled from the spec: the expectation value of Pauli `Z` read from
column `q` of the shots, the average of `(-1) ^ bit` over the shots
(glossary: "scalar weighted average of an observable's eigenvalues under
the measured state distribution").  The observable implementation lives
in mitiq core, outside this repository; this model is used on results
whose qubit indices are in the standard order, where qubit `q` is
column `q`. -/
def expZ (r : MeasurementResult) (q : Nat) : ℚ :=
  (r.result.map (fun row => if row.getD q false then (-1 : ℚ) else 1)).sum
    / r.result.length

/-- Modelled from the spec: the observable `Z⊗I + I⊗Z` of the tests, the
sum of the single-qubit `Z` expectations on qubits `0` and `1`. -/
def obsZIplusIZ : MeasurementResult → ℚ :=
  fun r => expZ r 0 + expZ r 1

/-- A 2 x 2 inverse matrix with negative and non-normalised entries, used
to witness that such corrected rows are accepted. -/
def negMatQ : MatQ := ⟨2, 2, fun i j => if i = j then -1 else 1 / 2⟩

/-- The first component of a run is always the event trace fixed by
whether an inverse matrix was supplied, whatever the outcome. -/
theorem execute_with_rci_events (c : Circuit) (executor : Circuit → MeasurementResult)
    (observable : Option (MeasurementResult → ℚ)) (inv : Option MatQ) (p0 p1 : ℚ)
    (calib : Nat → ℚ → ℚ → MatQ) (rs : Nat → ℚ) :
    (execute_with_rci c executor observable inv p0 p1 calib rs).1
      = (if inv.isNone then [RciEvent.notice, RciEvent.calibrate, RciEvent.executorRun]
         else [RciEvent.executorRun]) := by
  cases inv with
  | none =>
    cases hres : rciCorrectedResult c executor (resolveMatrix none c.numQubits p0 p1 calib) rs with
    | error e => simp [execute_with_rci, hres]
    | ok corrected => cases observable <;> simp [execute_with_rci, hres]
  | some M =>
    cases hres : rciCorrectedResult c executor (resolveMatrix (some M) c.numQubits p0 p1 calib) rs with
    | error e => simp [execute_with_rci, hres]
    | ok corrected => cases observable <;> simp [execute_with_rci, hres]


/-- Assembling a successful run: when the corrected result is `mr` and an
observable was supplied, the call returns `f mr` after the trace fixed by
the matrix argument. -/
theorem execute_with_rci_ok (c : Circuit) (executor : Circuit → MeasurementResult)
    (f : MeasurementResult → ℚ) (inv : Option MatQ) (p0 p1 : ℚ)
    (calib : Nat → ℚ → ℚ → MatQ) (rs : Nat → ℚ) (mr : MeasurementResult)
    (h : rciCorrectedResult c executor (resolveMatrix inv c.numQubits p0 p1 calib) rs
          = .ok mr) :
    execute_with_rci c executor (some f) inv p0 p1 calib rs
      = ((if inv.isNone then [RciEvent.notice, RciEvent.calibrate, RciEvent.executorRun]
          else [RciEvent.executorRun]), .ok (f mr)) := by
  cases inv <;> simp [execute_with_rci, h]

/-- Assembling a failed run: an error in the correction pipeline is
returned as is, after the trace fixed by the matrix argument. -/
theorem execute_with_rci_error (c : Circuit) (executor : Circuit → MeasurementResult)
    (observable : Option (MeasurementResult → ℚ)) (inv : Option MatQ) (p0 p1 : ℚ)
    (calib : Nat → ℚ → ℚ → MatQ) (rs : Nat → ℚ) (e : RciError)
    (h : rciCorrectedResult c executor (resolveMatrix inv c.numQubits p0 p1 calib) rs
          = .error e) :
    execute_with_rci c executor observable inv p0 p1 calib rs
      = ((if inv.isNone then [RciEvent.notice, RciEvent.calibrate, RciEvent.executorRun]
          else [RciEvent.executorRun]), .error e) := by
  cases inv <;> simp [execute_with_rci, h]

theorem rciCorrectedResult_of_stages (c : Circuit) (executor : Circuit → MeasurementResult)
    (M : MatQ) (rs : Nat → ℚ) (A : MatQ) (rows2 : List (List Bool))
    (hcorr : correctionStage M c.numQubits (executor c).result = .ok A)
    (hres : resampleStage A (executor c).qubit_indices rs = .ok rows2) :
    rciCorrectedResult c executor M rs = squeezeToResult rows2 (executor c).qubit_indices := by
  simp only [rciCorrectedResult, hcorr, hres]

theorem rciCorrectedResult_of_corr_error (c : Circuit) (executor : Circuit → MeasurementResult)
    (M : MatQ) (rs : Nat → ℚ) (e : RciError)
    (h : correctionStage M c.numQubits (executor c).result = .error e) :
    rciCorrectedResult c executor M rs = .error e := by
  simp only [rciCorrectedResult, h]

theorem rciCorrectedResult_of_resample_error (c : Circuit)
    (executor : Circuit → MeasurementResult) (M : MatQ) (rs : Nat → ℚ) (A : MatQ)
    (e : RciError)
    (hcorr : correctionStage M c.numQubits (executor c).result = .ok A)
    (hres : resampleStage A (executor c).qubit_indices rs = .error e) :
    rciCorrectedResult c executor M rs = .error e := by
  simp only [rciCorrectedResult, hcorr, hres]

/-! ## The claims -/

/-- C1: the claim says a dimension mismatch fails with an assertion
before any sampling occurs and before the executor is ever invoked.  The
code has no dimension assertion: on a 2-qubit circuit with a 2 x 2
inverse matrix the executor runs first (the trace contains
`executorRun`), the one-hot state vectors are built, and only then does
`inverse_confusion_matrix @ noisy_state_vectors.T` fail with a numpy
shape error — partial work has been performed and the failure is not an
assertion. -/
theorem rci_dimension_mismatch_after_executor :
    execute_with_rci ⟨2⟩ (fun _ => ⟨[[false, false], [false, false]], [0, 1]⟩)
        (some obsZIplusIZ) (some (idMatQ 2)) (1 / 100) (1 / 100) calibDefault rsHalf
      = ([RciEvent.executorRun], .error RciError.shapeMismatch)
      ∧ RciEvent.executorRun
          ∈ (execute_with_rci ⟨2⟩ (fun _ => ⟨[[false, false], [false, false]], [0, 1]⟩)
              (some obsZIplusIZ) (some (idMatQ 2)) (1 / 100) (1 / 100) calibDefault rsHalf).1 := by
  have hsv : stateVectorStage 2 [[false, false], [false, false]]
      = .ok [oneHot 4 0, oneHot 4 0] :=
    stateVectorStage_ok 2 [[false, false], [false, false]] (by decide) (by decide)
  have hcorr : correctionStage (idMatQ 2) 2 [[false, false], [false, false]]
      = .error RciError.shapeMismatch := by
    rw [correctionStage_eq_of_sv (idMatQ 2) 2 _ _ hsv, if_neg (by decide)]
  have h1 : execute_with_rci ⟨2⟩ (fun _ => ⟨[[false, false], [false, false]], [0, 1]⟩)
      (some obsZIplusIZ) (some (idMatQ 2)) (1 / 100) (1 / 100) calibDefault rsHalf
        = ([RciEvent.executorRun], .error RciError.shapeMismatch) :=
    execute_with_rci_error ⟨2⟩ _ _ (some (idMatQ 2)) _ _ _ _ _
      (rciCorrectedResult_of_corr_error ⟨2⟩ _ _ _ _ hcorr)
  exact ⟨h1, by rw [h1]; simp⟩

/-- C2: under the length and shape preconditions, the correction stage
succeeds for any inverse-matrix entries — negative and non-normalised
entries included, since `M.entry` is unconstrained — each shot is turned
into the one-hot vector of length `2 ^ n` indexed by the shot's
big-endian value, and row `s` of the batched form `(M @ V.T).T` equals
`M` applied to the one-hot vector of shot `s`. -/
theorem rci_per_shot_correction (M : MatQ) (n : Nat) (rows : List (List Bool)) (s : Nat)
    (hrows : ∀ bs ∈ rows, bs.length = n) (hcols : M.cols = 2 ^ n) (hs : s < rows.length) :
    correctionStage M n rows
        = .ok (adjustedMatrix M (2 ^ n) (rows.map (fun bs => oneHot (2 ^ n) (bitsToNat bs))))
      ∧ (adjustedMatrix M (2 ^ n) (rows.map (fun bs => oneHot (2 ^ n) (bitsToNat bs)))).row s
        = mulVecM M (oneHot (2 ^ n) (bitsToNat (rows.getD s []))) := by
  have hne : rows ≠ [] := by
    intro he
    rw [he] at hs
    simp at hs
  constructor
  · rw [correctionStage_eq_of_sv M n rows _ (stateVectorStage_ok n rows hne hrows),
      if_pos hcols]
  · rw [adjustedMatrix_row]
    congr 1
    exact getD_map_lt _ _ s hs [] []

/-- Witness for C2 at a concrete input: one 1-qubit shot `[1]` and an
inverse matrix with negative, non-normalised entries; the corrected row
`[1/2, -1]` is produced without error. -/
theorem rci_per_shot_correction_witness :
    (correctionStage negMatQ 1 [[true]]
        = .ok (adjustedMatrix negMatQ (2 ^ 1)
            ([[true]].map (fun bs => oneHot (2 ^ 1) (bitsToNat bs))))
      ∧ (adjustedMatrix negMatQ (2 ^ 1)
            ([[true]].map (fun bs => oneHot (2 ^ 1) (bitsToNat bs)))).row 0
        = mulVecM negMatQ (oneHot (2 ^ 1) (bitsToNat [true])))
      ∧ mulVecM negMatQ (oneHot (2 ^ 1) (bitsToNat [true])) = [1 / 2, -1] := by
  constructor
  · exact rci_per_shot_correction negMatQ 1 [[true]] 0 (by decide) (by decide) (by decide)
  · show mulVecM negMatQ (oneHot 2 1) = [1 / 2, -1]
    norm_num [mulVecM, negMatQ, Finset.sum_range_succ, List.range_succ, oneHot]

/-- C3 (counterexample): a noiseless (deterministic) executor whose
two-shot result carries qubit indices `(1, 0)` — a legal mitiq
measurement result, and with two shots on two qubits the trailing
`.squeeze()` of line 106 only removes the singleton repetition axis —
together with the identity inverse matrix yields a corrected result with
permuted bit columns, because cirq's `sample_state_vector` reads
`indices` as tensor-axis positions.  The returned expectation is `1`
while the unmitigated expectation of the same observable on the raw
result is `0`, refuting the claim's "for every circuit and
observable". -/
theorem rci_identity_invariance_cex :
    (execute_with_rci ⟨2⟩ (fun _ => ⟨[[false, true], [false, true]], [1, 0]⟩)
        (some (obsIndicator [[false, true], [false, true]])) (some (idMatQ 4))
        (1 / 100) (1 / 100) calibDefault rsHalf).2 = .ok 1
      ∧ obsIndicator [[false, true], [false, true]]
          ⟨[[false, true], [false, true]], [1, 0]⟩ = 0
      ∧ ((1 : ℚ) = 0) = False := by
  have hsv : stateVectorStage 2 [[false, true], [false, true]]
      = .ok [oneHot 4 1, oneHot 4 1] :=
    stateVectorStage_ok 2 [[false, true], [false, true]] (by decide) (by decide)
  have hcorr : correctionStage (idMatQ 4) 2 [[false, true], [false, true]]
      = .ok (adjustedMatrix (idMatQ 4) 4 [oneHot 4 1, oneHot 4 1]) := by
    rw [correctionStage_eq_of_sv (idMatQ 4) 2 _ _ hsv,
      if_pos (show (idMatQ 4).cols = 2 ^ 2 from rfl)]
    rfl
  have hrow01 : ∀ s ∈ [0, 1],
      (adjustedMatrix (idMatQ 4) 4 [oneHot 4 1, oneHot 4 1]).row s = oneHot 4 1 := by
    intro s hsmem
    have hs01 : s = 0 ∨ s = 1 := by simpa using hsmem
    rw [adjustedMatrix_row]
    rcases hs01 with h0 | h1
    · subst h0
      show mulVecM (idMatQ 4) (oneHot 4 1) = oneHot 4 1
      exact mulVecM_id_oneHot 4 1 (by norm_num)
    · subst h1
      show mulVecM (idMatQ 4) (oneHot 4 1) = oneHot 4 1
      exact mulVecM_id_oneHot 4 1 (by norm_num)
  have hsamp : ∀ s : Nat, sample_state_vector (oneHot 4 1) [1, 0] (rsHalf s)
      = .ok [true, false] := by
    intro s
    have h := sample_state_vector_oneHot 2 1 [1, 0] (rsHalf s) (by norm_num) (by decide)
      (by norm_num [rsHalf]) (by norm_num [rsHalf])
    rw [show axisBits 2 1 [1, 0] = [true, false] by decide] at h
    exact h
  have hresample : resampleStage (adjustedMatrix (idMatQ 4) 4 [oneHot 4 1, oneHot 4 1])
      [1, 0] rsHalf = .ok [[true, false], [true, false]] := by
    unfold resampleStage
    rw [show (adjustedMatrix (idMatQ 4) 4 [oneHot 4 1, oneHot 4 1]).rows = 2 from rfl]
    rw [show List.range 2 = [0, 1] from rfl]
    have hall : ∀ s ∈ [0, 1], sample_state_vector
        ((adjustedMatrix (idMatQ 4) 4 [oneHot 4 1, oneHot 4 1]).row s) [1, 0] (rsHalf s)
          = .ok ((fun _ => [true, false]) s) := by
      intro s hsmem
      rw [hrow01 s hsmem]
      exact hsamp s
    exact mapExcept_ok_of_forall _ _ [0, 1] hall
  have hcr : rciCorrectedResult ⟨2⟩ (fun _ => ⟨[[false, true], [false, true]], [1, 0]⟩)
      (idMatQ 4) rsHalf = .ok ⟨[[true, false], [true, false]], [1, 0]⟩ := by
    rw [rciCorrectedResult_of_stages ⟨2⟩ _ (idMatQ 4) rsHalf _ _ hcorr hresample]
    rfl
  have hrun := execute_with_rci_ok ⟨2⟩ (fun _ => ⟨[[false, true], [false, true]], [1, 0]⟩)
    (obsIndicator [[false, true], [false, true]]) (some (idMatQ 4)) (1 / 100) (1 / 100)
    calibDefault rsHalf ⟨[[true, false], [true, false]], [1, 0]⟩ hcr
  refine ⟨?_, ?_, eq_false (by norm_num)⟩
  · rw [hrun]
    show Except.ok (obsIndicator [[false, true], [false, true]]
      ⟨[[true, false], [true, false]], [1, 0]⟩) = Except.ok 1
    rw [show obsIndicator [[false, true], [false, true]]
        ⟨[[true, false], [true, false]], [1, 0]⟩ = 1 by
      unfold obsIndicator; rw [if_neg (by decide)]]
  · unfold obsIndicator
    rw [if_pos rfl]

/-- C3 (amended): for a deterministic executor whose result carries at
least two shots of length `n` over at least two qubits (the regime in
which line 106's `.squeeze()` only removes the singleton repetition
axis) and lists its qubit indices in the standard order `0, ..., n-1`,
and the identity inverse matrix, the returned expectation value equals
the unmitigated expectation value computed from the raw measurement
result, for every observable.  The restrictions are those the
counterexample and the squeeze behaviour force: non-standard qubit-index
orderings permute the corrected bit columns, and single-shot or 1-qubit
runs are flattened by `.squeeze()` before the result is rebuilt. -/
theorem rci_identity_invariance (c : Circuit) (executor : Circuit → MeasurementResult)
    (obs : MeasurementResult → ℚ) (p0 p1 : ℚ) (calib : Nat → ℚ → ℚ → MatQ) (rs : Nat → ℚ)
    (hshots : 2 ≤ (executor c).result.length)
    (hqubits : 2 ≤ c.numQubits)
    (hrows : ∀ bs ∈ (executor c).result, bs.length = c.numQubits)
    (hidx : (executor c).qubit_indices = List.range c.numQubits)
    (hrs : ∀ s, 0 ≤ rs s ∧ rs s < 1) :
    execute_with_rci c executor (some obs) (some (idMatQ (2 ^ c.numQubits))) p0 p1 calib rs
      = ([RciEvent.executorRun], .ok (obs (executor c))) := by
  have hmem : ∀ s, s < (executor c).result.length →
      (executor c).result.getD s [] ∈ (executor c).result := by
    intro s hs
    rw [List.getD_eq_getElem _ _ hs]
    exact List.getElem_mem _
  have hlen : ∀ s, s < (executor c).result.length →
      ((executor c).result.getD s []).length = c.numQubits :=
    fun s hs => hrows _ (hmem s hs)
  have htgt : ∀ s, s < (executor c).result.length →
      bitsToNat ((executor c).result.getD s []) < 2 ^ c.numQubits := by
    intro s hs
    have h1 := bitsToNat_lt ((executor c).result.getD s [])
    rwa [hlen s hs] at h1
  have hcorr := rciCorrectedResult_eq c executor (idMatQ (2 ^ c.numQubits)) rs
    (fun s => bitsToNat ((executor c).result.getD s [])) hshots (by omega) hrows hidx
    hrs rfl htgt (fun s hs => mulVecM_id_oneHot _ _ (htgt s hs))
  have hmap : (List.range (executor c).result.length).map
      (fun s => natToBits c.numQubits (bitsToNat ((executor c).result.getD s [])))
        = (executor c).result := by
    have h2 : ∀ s ∈ List.range (executor c).result.length,
        natToBits c.numQubits (bitsToNat ((executor c).result.getD s []))
          = (executor c).result.getD s [] := by
      intro s hs
      have hslt := List.mem_range.mp hs
      rw [← hlen s hslt, natToBits_bitsToNat]
    rw [List.map_congr_left h2, range_map_getD]
  rw [hmap] at hcorr
  have hrun := execute_with_rci_ok c executor obs (some (idMatQ (2 ^ c.numQubits)))
    p0 p1 calib rs ⟨(executor c).result, (executor c).qubit_indices⟩ hcorr
  rw [hrun]
  rfl

/-- Witness for C3 (amended) at a concrete input: two shots on two
qubits in standard order, evaluated with the modelled `Z⊗I + I⊗Z`
observable; the mitigated value equals the raw value `0`. -/
theorem rci_identity_invariance_witness :
    execute_with_rci ⟨2⟩ (fun _ => ⟨[[true, false], [false, true]], [0, 1]⟩)
        (some obsZIplusIZ) (some (idMatQ 4)) (1 / 100) (1 / 100) calibDefault rsHalf
      = ([RciEvent.executorRun],
          .ok (obsZIplusIZ ⟨[[true, false], [false, true]], [0, 1]⟩))
      ∧ obsZIplusIZ ⟨[[true, false], [false, true]], [0, 1]⟩ = 0 := by
  constructor
  · exact rci_identity_invariance ⟨2⟩ (fun _ => ⟨[[true, false], [false, true]], [0, 1]⟩)
      obsZIplusIZ (1 / 100) (1 / 100) calibDefault rsHalf (by decide) (by decide)
      (by decide) (by decide)
      (fun _ => ⟨by norm_num [rsHalf], by norm_num [rsHalf]⟩)
  · norm_num [obsZIplusIZ, expZ]

/-- C4 (counterexample): the full-flip executor with the anti-diagonal
inverse matrix fails to recover the true expectation when the two-shot
result's qubit indices are `(1, 0)` (two shots on two qubits, so line
106's `.squeeze()` only removes the singleton repetition axis): the
corrected bit columns come back permuted because cirq's
`sample_state_vector` reads `indices` as tensor-axis positions, so the
returned expectation is `1` while the true expectation of the same
observable is `0`. -/
theorem rci_full_flip_cex :
    (execute_with_rci ⟨2⟩ (fun _ => flipResult ⟨[[true, false], [true, false]], [1, 0]⟩)
        (some (obsIndicator [[true, false], [true, false]])) (some (antiDiagMatQ 4))
        (1 / 100) (1 / 100) calibDefault rsHalf).2 = .ok 1
      ∧ obsIndicator [[true, false], [true, false]]
          ⟨[[true, false], [true, false]], [1, 0]⟩ = 0
      ∧ ((1 : ℚ) = 0) = False := by
  have hsv : stateVectorStage 2 [[false, true], [false, true]]
      = .ok [oneHot 4 1, oneHot 4 1] :=
    stateVectorStage_ok 2 [[false, true], [false, true]] (by decide) (by decide)
  have hcorr : correctionStage (antiDiagMatQ 4) 2 [[false, true], [false, true]]
      = .ok (adjustedMatrix (antiDiagMatQ 4) 4 [oneHot 4 1, oneHot 4 1]) := by
    rw [correctionStage_eq_of_sv (antiDiagMatQ 4) 2 _ _ hsv,
      if_pos (show (antiDiagMatQ 4).cols = 2 ^ 2 from rfl)]
    rfl
  have hrow01 : ∀ s ∈ [0, 1],
      (adjustedMatrix (antiDiagMatQ 4) 4 [oneHot 4 1, oneHot 4 1]).row s = oneHot 4 2 := by
    intro s hsmem
    have hs01 : s = 0 ∨ s = 1 := by simpa using hsmem
    rw [adjustedMatrix_row]
    rcases hs01 with h0 | h1
    · subst h0
      show mulVecM (antiDiagMatQ 4) (oneHot 4 1) = oneHot 4 2
      exact mulVecM_antiDiag_oneHot 4 1 (by norm_num)
    · subst h1
      show mulVecM (antiDiagMatQ 4) (oneHot 4 1) = oneHot 4 2
      exact mulVecM_antiDiag_oneHot 4 1 (by norm_num)
  have hsamp : ∀ s : Nat, sample_state_vector (oneHot 4 2) [1, 0] (rsHalf s)
      = .ok [false, true] := by
    intro s
    have h := sample_state_vector_oneHot 2 2 [1, 0] (rsHalf s) (by norm_num) (by decide)
      (by norm_num [rsHalf]) (by norm_num [rsHalf])
    rw [show axisBits 2 2 [1, 0] = [false, true] by decide] at h
    exact h
  have hresample : resampleStage (adjustedMatrix (antiDiagMatQ 4) 4 [oneHot 4 1, oneHot 4 1])
      [1, 0] rsHalf = .ok [[false, true], [false, true]] := by
    unfold resampleStage
    rw [show (adjustedMatrix (antiDiagMatQ 4) 4 [oneHot 4 1, oneHot 4 1]).rows = 2 from rfl]
    rw [show List.range 2 = [0, 1] from rfl]
    have hall : ∀ s ∈ [0, 1], sample_state_vector
        ((adjustedMatrix (antiDiagMatQ 4) 4 [oneHot 4 1, oneHot 4 1]).row s) [1, 0] (rsHalf s)
          = .ok ((fun _ => [false, true]) s) := by
      intro s hsmem
      rw [hrow01 s hsmem]
      exact hsamp s
    exact mapExcept_ok_of_forall _ _ [0, 1] hall
  have hcr : rciCorrectedResult ⟨2⟩
      (fun _ => flipResult ⟨[[true, false], [true, false]], [1, 0]⟩)
      (antiDiagMatQ 4) rsHalf = .ok ⟨[[false, true], [false, true]], [1, 0]⟩ := by
    rw [rciCorrectedResult_of_stages ⟨2⟩ _ (antiDiagMatQ 4) rsHalf _ _ hcorr hresample]
    rfl
  have hrun := execute_with_rci_ok ⟨2⟩
    (fun _ => flipResult ⟨[[true, false], [true, false]], [1, 0]⟩)
    (obsIndicator [[true, false], [true, false]]) (some (antiDiagMatQ 4)) (1 / 100) (1 / 100)
    calibDefault rsHalf ⟨[[false, true], [false, true]], [1, 0]⟩ hcr
  refine ⟨?_, ?_, eq_false (by norm_num)⟩
  · rw [hrun]
    show Except.ok (obsIndicator [[true, false], [true, false]]
      ⟨[[false, true], [false, true]], [1, 0]⟩) = Except.ok 1
    rw [show obsIndicator [[true, false], [true, false]]
        ⟨[[false, true], [false, true]], [1, 0]⟩ = 1 by
      unfold obsIndicator; rw [if_neg (by decide)]]
  · unfold obsIndicator
    rw [if_pos rfl]

/-- C4 (amended): for a true result carrying at least two shots of
length `n` over at least two qubits (the regime in which line 106's
`.squeeze()` only removes the singleton repetition axis) whose qubit
indices are in the standard order `0, ..., n-1`, the deterministic
full-flip executor together with the anti-diagonal (bit-reversal)
inverse matrix recovers the true expectation value exactly, for every
observable.  The restrictions are those the counterexample and the
squeeze behaviour force: non-standard qubit-index orderings permute the
corrected bit columns, and single-shot or 1-qubit runs are flattened by
`.squeeze()` before the result is rebuilt. -/
theorem rci_full_flip_correction (c : Circuit) (trueRes : MeasurementResult)
    (obs : MeasurementResult → ℚ) (p0 p1 : ℚ) (calib : Nat → ℚ → ℚ → MatQ) (rs : Nat → ℚ)
    (hshots : 2 ≤ trueRes.result.length)
    (hqubits : 2 ≤ c.numQubits)
    (hrows : ∀ bs ∈ trueRes.result, bs.length = c.numQubits)
    (hidx : trueRes.qubit_indices = List.range c.numQubits)
    (hrs : ∀ s, 0 ≤ rs s ∧ rs s < 1) :
    execute_with_rci c (fun _ => flipResult trueRes) (some obs)
        (some (antiDiagMatQ (2 ^ c.numQubits))) p0 p1 calib rs
      = ([RciEvent.executorRun], .ok (obs trueRes)) := by
  have hmemT : ∀ s, s < trueRes.result.length →
      trueRes.result.getD s [] ∈ trueRes.result := by
    intro s hs
    rw [List.getD_eq_getElem _ _ hs]
    exact List.getElem_mem _
  have hlenT : ∀ s, s < trueRes.result.length →
      (trueRes.result.getD s []).length = c.numQubits :=
    fun s hs => hrows _ (hmemT s hs)
  have htgtT : ∀ s, s < trueRes.result.length →
      bitsToNat (trueRes.result.getD s []) < 2 ^ c.numQubits := by
    intro s hs
    have h1 := bitsToNat_lt (trueRes.result.getD s [])
    rwa [hlenT s hs] at h1
  have hlenEq : (flipResult trueRes).result.length = trueRes.result.length := by
    show (trueRes.result.map (List.map not)).length = _
    exact List.length_map _ _
  have hshotsF : 2 ≤ (flipResult trueRes).result.length := by
    rw [hlenEq]
    exact hshots
  have hrowsF : ∀ bs ∈ (flipResult trueRes).result, bs.length = c.numQubits := by
    intro bs hbs
    have hbs2 : bs ∈ trueRes.result.map (List.map not) := hbs
    rw [List.mem_map] at hbs2
    obtain ⟨a, ha, haeq⟩ := hbs2
    rw [← haeq, List.length_map]
    exact hrows a ha
  have hidxF : (flipResult trueRes).qubit_indices = List.range c.numQubits := hidx
  have hgetF : ∀ s, s < trueRes.result.length →
      (flipResult trueRes).result.getD s [] = (trueRes.result.getD s []).map not := by
    intro s hs
    show (trueRes.result.map (List.map not)).getD s [] = _
    exact getD_map_lt _ _ s hs [] []
  have hd1 : 1 ≤ 2 ^ c.numQubits := Nat.one_le_two_pow
  have htgtF : ∀ s, s < (flipResult trueRes).result.length →
      bitsToNat (trueRes.result.getD s []) < 2 ^ c.numQubits := by
    intro s hs
    exact htgtT s (by rwa [hlenEq] at hs)
  have hrowF : ∀ s, s < (flipResult trueRes).result.length →
      mulVecM (antiDiagMatQ (2 ^ c.numQubits))
        (oneHot (2 ^ c.numQubits) (bitsToNat ((flipResult trueRes).result.getD s [])))
        = oneHot (2 ^ c.numQubits) (bitsToNat (trueRes.result.getD s [])) := by
    intro s hs
    have hslt : s < trueRes.result.length := by rwa [hlenEq] at hs
    rw [hgetF s hslt, bitsToNat_map_not, hlenT s hslt]
    rw [mulVecM_antiDiag_oneHot _ _ (by omega)]
    congr 1
    have := htgtT s hslt
    omega
  have hcorr := rciCorrectedResult_eq c (fun _ => flipResult trueRes)
    (antiDiagMatQ (2 ^ c.numQubits)) rs
    (fun s => bitsToNat (trueRes.result.getD s [])) hshotsF (by omega) hrowsF hidxF
    hrs rfl htgtF hrowF
  have hcorr2 : rciCorrectedResult c (fun _ => flipResult trueRes)
      (antiDiagMatQ (2 ^ c.numQubits)) rs
        = .ok ⟨(List.range trueRes.result.length).map
            (fun s => natToBits c.numQubits (bitsToNat (trueRes.result.getD s []))),
            trueRes.qubit_indices⟩ := by
    rw [hcorr]
    have h3 : ((fun _ : Circuit => flipResult trueRes) c).result.length
        = trueRes.result.length := hlenEq
    rw [h3]
    rfl
  have hmapT : (List.range trueRes.result.length).map
      (fun s => natToBits c.numQubits (bitsToNat (trueRes.result.getD s [])))
        = trueRes.result := by
    have h2 : ∀ s ∈ List.range trueRes.result.length,
        natToBits c.numQubits (bitsToNat (trueRes.result.getD s []))
          = trueRes.result.getD s [] := by
      intro s hs
      have hslt := List.mem_range.mp hs
      rw [← hlenT s hslt, natToBits_bitsToNat]
    rw [List.map_congr_left h2, range_map_getD]
  rw [hmapT] at hcorr2
  have hrun := execute_with_rci_ok c (fun _ => flipResult trueRes) obs
    (some (antiDiagMatQ (2 ^ c.numQubits))) p0 p1 calib rs
    ⟨trueRes.result, trueRes.qubit_indices⟩ hcorr2
  rw [hrun]
  rfl

/-- Witness for C4 (amended) at the claim's concrete instance: the
2-qubit all-ones true result (two shots), the full-flip executor,
observable `Z⊗I + I⊗Z`: the unmitigated expectation is `2` and the
mitigated expectation is `-2`, the true value. -/
theorem rci_full_flip_correction_witness :
    execute_with_rci ⟨2⟩ (fun _ => flipResult ⟨[[true, true], [true, true]], [0, 1]⟩)
        (some obsZIplusIZ) (some (antiDiagMatQ 4)) (1 / 100) (1 / 100) calibDefault rsHalf
      = ([RciEvent.executorRun], .ok (-2))
      ∧ obsZIplusIZ ⟨[[true, true], [true, true]], [0, 1]⟩ = -2
      ∧ obsZIplusIZ (flipResult ⟨[[true, true], [true, true]], [0, 1]⟩) = 2 := by
  refine ⟨?_, ?_, ?_⟩
  · have h := rci_full_flip_correction ⟨2⟩ ⟨[[true, true], [true, true]], [0, 1]⟩ obsZIplusIZ
      (1 / 100) (1 / 100) calibDefault rsHalf (by decide) (by decide) (by decide) (by decide)
      (fun _ => ⟨by norm_num [rsHalf], by norm_num [rsHalf]⟩)
    refine h.trans ?_
    rw [show obsZIplusIZ ⟨[[true, true], [true, true]], [0, 1]⟩ = -2 by
      norm_num [obsZIplusIZ, expZ]]
  · norm_num [obsZIplusIZ, expZ]
  · show obsZIplusIZ ⟨[[false, false], [false, false]], [0, 1]⟩ = 2
    norm_num [obsZIplusIZ, expZ]

/-- C5: calling `rci_decorator` with a callable first positional argument
(the `@rci_decorator` misuse) returns the descriptive `TypeError`
immediately — no decorator is produced and nothing is executed. -/
theorem rci_decorator_rejects_callable (f : Circuit → MeasurementResult)
    (inv : Option MatQ) (p0 p1 : ℚ) (calib : Nat → ℚ → ℚ → MatQ) (rs : Nat → ℚ) :
    rci_decorator (.callableObs f) inv p0 p1 calib rs
      = .error "Decorator must be used with parentheses (i.e., @rci_decorator()) even if no explicit arguments are passed." := rfl

/-- C6: the wrapped executor produced by `mitigate_executor` carries the
original executor's documentation string and name (via
`functools.wraps`), and so does the executor produced by the decorator
returned from `rci_decorator`. -/
theorem rci_metadata_preserved (executor : PyFunction Circuit MeasurementResult)
    (observable : Option (MeasurementResult → ℚ)) (f : MeasurementResult → ℚ)
    (inv : Option MatQ) (p0 p1 : ℚ) (calib : Nat → ℚ → ℚ → MatQ) (rs : Nat → ℚ) :
    (mitigate_executor executor observable inv p0 p1 calib rs).doc = executor.doc
      ∧ (mitigate_executor executor observable inv p0 p1 calib rs).name = executor.name
      ∧ ∃ dec, rci_decorator (.obs f) inv p0 p1 calib rs = .ok dec
          ∧ (dec executor).doc = executor.doc
          ∧ (dec executor).name = executor.name :=
  ⟨rfl, rfl, _, rfl, rfl, rfl⟩

/-- C7: the informational notice and the calibration sampling happen
exactly when no inverse confusion matrix is supplied, and in that case
the notice precedes the calibration, which precedes the executor call —
the trace is fully determined by whether the matrix argument is
absent. -/
theorem rci_calibration_iff_absent (c : Circuit) (executor : Circuit → MeasurementResult)
    (observable : Option (MeasurementResult → ℚ)) (inv : Option MatQ) (p0 p1 : ℚ)
    (calib : Nat → ℚ → ℚ → MatQ) (rs : Nat → ℚ) :
    (RciEvent.calibrate ∈ (execute_with_rci c executor observable inv p0 p1 calib rs).1
        ↔ inv.isNone = true)
      ∧ (RciEvent.notice ∈ (execute_with_rci c executor observable inv p0 p1 calib rs).1
        ↔ inv.isNone = true)
      ∧ (execute_with_rci c executor observable inv p0 p1 calib rs).1
          = (if inv.isNone then [RciEvent.notice, RciEvent.calibrate, RciEvent.executorRun]
             else [RciEvent.executorRun]) := by
  have hev := execute_with_rci_events c executor observable inv p0 p1 calib rs
  rw [hev]
  cases inv <;> simp

/-- C8: whenever the correction pipeline succeeds, the corrected
measurement result carries exactly the noisy result's qubit-index
ordering and one corrected bit vector per input shot. -/
theorem rci_output_shape_preserved (c : Circuit) (executor : Circuit → MeasurementResult)
    (M : MatQ) (rs : Nat → ℚ) (mr : MeasurementResult)
    (h : rciCorrectedResult c executor M rs = .ok mr) :
    mr.qubit_indices = (executor c).qubit_indices
      ∧ mr.result.length = (executor c).result.length := by
  cases hcorr : correctionStage M c.numQubits (executor c).result with
  | error e =>
    rw [rciCorrectedResult_of_corr_error c executor M rs e hcorr] at h
    simp at h
  | ok A =>
    cases hres : resampleStage A (executor c).qubit_indices rs with
    | error e =>
      rw [rciCorrectedResult_of_resample_error c executor M rs A e hcorr hres] at h
      simp at h
    | ok rows2 =>
      rw [rciCorrectedResult_of_stages c executor M rs A rows2 hcorr hres] at h
      unfold squeezeToResult at h
      by_cases hsq : rows2.length = 1 ∨ (executor c).qubit_indices.length = 1
      · rw [if_pos hsq] at h
        simp at h
      · rw [if_neg hsq] at h
        simp only [Except.ok.injEq] at h
        subst h
        refine ⟨rfl, ?_⟩
        have h1 : rows2.length = (List.range A.rows).length := mapExcept_length _ _ _ hres
        rw [List.length_range] at h1
        rw [correctionStage_rows M c.numQubits (executor c).result A hcorr] at h1
        exact h1

/-- Witness for C8 at a concrete input: two all-zero shots corrected
through the anti-diagonal matrix; the output keeps qubit indices `(0,1)`
and two rows. -/
theorem rci_output_shape_preserved_witness :
    (MeasurementResult.mk [[true, true], [true, true]] [0, 1]).qubit_indices
        = (MeasurementResult.mk [[false, false], [false, false]] [0, 1]).qubit_indices
      ∧ (MeasurementResult.mk [[true, true], [true, true]] [0, 1]).result.length
        = (MeasurementResult.mk [[false, false], [false, false]] [0, 1]).result.length := by
  have hrow : ∀ s, s < ((fun _ : Circuit =>
      (⟨[[false, false], [false, false]], [0, 1]⟩ : MeasurementResult)) ⟨2⟩).result.length →
      mulVecM (antiDiagMatQ (2 ^ (⟨2⟩ : Circuit).numQubits))
        (oneHot (2 ^ (⟨2⟩ : Circuit).numQubits)
          (bitsToNat (((fun _ : Circuit =>
            (⟨[[false, false], [false, false]], [0, 1]⟩ : MeasurementResult)) ⟨2⟩).result.getD s [])))
        = oneHot (2 ^ (⟨2⟩ : Circuit).numQubits) ((fun _ : Nat => 3) s) := by
    intro s hs
    have hs1 : s < 2 := hs
    interval_cases s <;> exact mulVecM_antiDiag_oneHot 4 0 (by norm_num)
  have hcorr := rciCorrectedResult_eq ⟨2⟩
    (fun _ => ⟨[[false, false], [false, false]], [0, 1]⟩)
    (antiDiagMatQ (2 ^ 2)) rsHalf (fun _ => 3) (by decide) (by decide) (by decide) (by decide)
    (fun _ => ⟨by norm_num [rsHalf], by norm_num [rsHalf]⟩) rfl
    (by intro s hs; exact show (3 : Nat) < 2 ^ (⟨2⟩ : Circuit).numQubits by decide) hrow
  have hcr : rciCorrectedResult ⟨2⟩
      (fun _ => ⟨[[false, false], [false, false]], [0, 1]⟩) (antiDiagMatQ 4) rsHalf
        = .ok ⟨[[true, true], [true, true]], [0, 1]⟩ := hcorr
  exact rci_output_shape_preserved ⟨2⟩
    (fun _ => ⟨[[false, false], [false, false]], [0, 1]⟩) (antiDiagMatQ 4) rsHalf
    ⟨[[true, true], [true, true]], [0, 1]⟩ hcr

/-- C9: with `observable = None`, every call that reaches the evaluation
stage fails with the attribute error on `None`, so no such call ever
succeeds: supplying an observable is a de facto precondition. -/
theorem rci_observable_none_fails (c : Circuit) (executor : Circuit → MeasurementResult)
    (inv : Option MatQ) (p0 p1 : ℚ) (calib : Nat → ℚ → ℚ → MatQ) (rs : Nat → ℚ)
    (mr : MeasurementResult)
    (h : rciCorrectedResult c executor (resolveMatrix inv c.numQubits p0 p1 calib) rs
          = .ok mr) :
    (execute_with_rci c executor none inv p0 p1 calib rs).2
        = .error RciError.attributeError
      ∧ exceptIsOk (execute_with_rci c executor none inv p0 p1 calib rs).2 = false := by
  constructor
  · cases inv <;> simp [execute_with_rci, h]
  · cases inv <;> simp [execute_with_rci, h, exceptIsOk]

/-- Witness for C9 at a concrete two-shot input where the pipeline
otherwise succeeds: the call still fails with the attribute error. -/
theorem rci_observable_none_fails_witness :
    (execute_with_rci ⟨2⟩ (fun _ => ⟨[[false, true], [false, true]], [0, 1]⟩) none
        (some (idMatQ 4)) (1 / 100) (1 / 100) calibDefault rsHalf).2
          = .error RciError.attributeError
      ∧ exceptIsOk (execute_with_rci ⟨2⟩ (fun _ => ⟨[[false, true], [false, true]], [0, 1]⟩)
          none (some (idMatQ 4)) (1 / 100) (1 / 100) calibDefault rsHalf).2 = false := by
  have hrow : ∀ s, s < ((fun _ : Circuit =>
      (⟨[[false, true], [false, true]], [0, 1]⟩ : MeasurementResult)) ⟨2⟩).result.length →
      mulVecM (idMatQ (2 ^ (⟨2⟩ : Circuit).numQubits))
        (oneHot (2 ^ (⟨2⟩ : Circuit).numQubits)
          (bitsToNat (((fun _ : Circuit =>
            (⟨[[false, true], [false, true]], [0, 1]⟩ : MeasurementResult)) ⟨2⟩).result.getD s [])))
        = oneHot (2 ^ (⟨2⟩ : Circuit).numQubits)
            ((fun s => bitsToNat ([[false, true], [false, true]].getD s [])) s) := by
    intro s hs
    have hs1 : s < 2 := hs
    interval_cases s <;> exact mulVecM_id_oneHot 4 1 (by norm_num)
  have hcorr := rciCorrectedResult_eq ⟨2⟩
    (fun _ => ⟨[[false, true], [false, true]], [0, 1]⟩)
    (idMatQ (2 ^ 2)) rsHalf (fun s => bitsToNat ([[false, true], [false, true]].getD s []))
    (by decide) (by decide) (by decide) (by decide)
    (fun _ => ⟨by norm_num [rsHalf], by norm_num [rsHalf]⟩) rfl
    (by
      intro s hs
      have hs1 : s < 2 := hs
      interval_cases s
      · exact show bitsToNat [false, true] < 2 ^ (⟨2⟩ : Circuit).numQubits by decide
      · exact show bitsToNat [false, true] < 2 ^ (⟨2⟩ : Circuit).numQubits by decide) hrow
  have hcr : rciCorrectedResult ⟨2⟩ (fun _ => ⟨[[false, true], [false, true]], [0, 1]⟩)
      (resolveMatrix (some (idMatQ 4)) (⟨2⟩ : Circuit).numQubits (1 / 100) (1 / 100)
        calibDefault) rsHalf
        = .ok ⟨[[false, true], [false, true]], [0, 1]⟩ := hcorr
  exact rci_observable_none_fails ⟨2⟩ (fun _ => ⟨[[false, true], [false, true]], [0, 1]⟩)
    (some (idMatQ 4)) (1 / 100) (1 / 100) calibDefault rsHalf
    ⟨[[false, true], [false, true]], [0, 1]⟩ hcr

/-- C10: when an inverse confusion matrix is supplied, the flip
probabilities `p0` and `p1` are dead parameters: two runs identical
except for them produce identical traces, corrected results and
expectation values (the corrected-result computation does not consume
them at all). -/
theorem rci_p0_p1_independent (c : Circuit) (executor : Circuit → MeasurementResult)
    (observable : Option (MeasurementResult → ℚ)) (M : MatQ) (p0 p1 q0 q1 : ℚ)
    (calib : Nat → ℚ → ℚ → MatQ) (rs : Nat → ℚ) :
    execute_with_rci c executor observable (some M) p0 p1 calib rs
      = execute_with_rci c executor observable (some M) q0 q1 calib rs := rfl
